import Mathlib

/-!
Shallow embedding of the morse decoder (src/morse.py).

Modelling conventions: Python strings are `List Char`; Python floats
(word frequencies and likelihoods) are exact rationals `ℚ`; the external
frequency oracle (word_frequency) and the external transliteration
function (unidecode) are parameters of the embedded functions; a Python
KeyError raised by a missing dictionary key is modelled by `Option`
(`none` = the call fails); a generator is modelled as the finite list of
the values it yields, in yield order.

The two recursive generators recurse on strict suffixes of their string
argument, so they are embedded with a fuel parameter set to the length
of the string; the lemmas `decode_all_possible_nil`,
`decode_all_possible_cons`, `segment_words_nil` and `segment_words_cons`
prove that the embedded functions satisfy exactly the recurrences of the
Python source.
-/

/-- The morse alphabet table of src/morse.py lines 11-25, in source
(insertion) order.  Keys are one-character strings; the digit rows are
commented out in the source and therefore absent.  -/
def ALPHABET : List (List Char × List Char) :=
  [ (['A'], ['.', '-']),
    (['B'], ['-', '.', '.', '.']),
    (['C'], ['-', '.', '-', '.']),
    (['D'], ['-', '.', '.']),
    (['E'], ['.']),
    (['F'], ['.', '.', '-', '.']),
    (['G'], ['-', '-', '.']),
    (['H'], ['.', '.', '.', '.']),
    (['I'], ['.', '.']),
    (['J'], ['.', '-', '-', '-']),
    (['K'], ['-', '.', '-']),
    (['L'], ['.', '-', '.', '.']),
    (['M'], ['-', '-']),
    (['N'], ['-', '.']),
    (['O'], ['-', '-', '-']),
    (['P'], ['.', '-', '-', '.']),
    (['Q'], ['-', '-', '.', '-']),
    (['R'], ['.', '-', '.']),
    (['S'], ['.', '.', '.']),
    (['T'], ['-']),
    (['U'], ['.', '.', '-']),
    (['V'], ['.', '.', '.', '-']),
    (['W'], ['.', '-', '-']),
    (['X'], ['-', '.', '.', '-']),
    (['Y'], ['-', '.', '-', '-']),
    (['Z'], ['-', '-', '.', '.']) ]

/-- The one-letter allow-list of src/morse.py line 57: the set {A, I}. -/
def ONE_LETTER : List (List Char) := [['A'], ['I']]

/-- Python dictionary lookup `ALPHABET[key]`: `none` models the KeyError
raised when the key is absent. -/
def alphabet_lookup (key : List Char) : Option (List Char) :=
  (ALPHABET.find? fun p => p.1 == key).map fun p => p.2

/-- Python `sep.join(parts)`: concatenate the parts with `sep` between
consecutive parts. -/
def joinSep (sep : List Char) : List (List Char) → List Char
  | [] => []
  | [x] => x
  | x :: y :: ys => x ++ sep ++ joinSep sep (y :: ys)

/-- The generator `(ALPHABET[unidecode(letter)] for letter in ...)` inside
`encode` (src/morse.py line 70): look up every letter, failing (KeyError,
modelled as `none`) as soon as one letter has no table entry.  `uni` is
the external unidecode transliteration function. -/
def encode_codes (uni : Char → List Char) : List Char → Option (List (List Char))
  | [] => some []
  | letter :: rest =>
    match alphabet_lookup (uni letter), encode_codes uni rest with
    | some code, some codes => some (code :: codes)
    | _, _ => none

/-- `encode(message, spaces)` of src/morse.py lines 60-70:
upper-case the message, transliterate each letter with unidecode, look
it up in ALPHABET and join the codes with the separator.  -/
def encode (uni : Char → List Char) (message : List Char) (spaces : Bool) :
    Option (List Char) :=
  (encode_codes uni (message.map Char.toUpper)).map
    (joinSep (if spaces then [' '] else []))

/-- Fuel-indexed form of `decode_all_possible` (src/morse.py lines
78-93).  Each recursive call of the source is on the strict suffix left
after removing a nonempty code, so fuel = length of the string is always
enough; the `0, _ :: _` arm is never reached from `decode_all_possible`
(see `decodeAux_fuel` and `decode_all_possible_cons`). -/
def decodeAux : Nat → List Char → List (List Char)
  | _, [] => [[]]
  | 0, _ :: _ => []
  | fuel + 1, c :: cs =>
    ALPHABET.flatMap fun lc =>
      if lc.2.isPrefixOf (c :: cs) then
        (decodeAux fuel ((c :: cs).drop lc.2.length)).map fun rest => lc.1 ++ rest
      else []

/-- `decode_all_possible(encoded)` of src/morse.py lines 78-93, as the
list of all yielded messages: empty input yields the empty message; a
nonempty input branches on every alphabet entry whose code is a prefix
of the input, recursing on the remaining suffix. -/
def decode_all_possible (encoded : List Char) : List (List Char) :=
  decodeAux encoded.length encoded

/-- Fuel-indexed form of `segment_words` (src/morse.py lines 96-116).
Python `for i in range(1, len(message) + 1)` is modelled as `j`
ranging over `List.range message.length` with `i = j + 1`, and the
local variable `word = message[:i]` of the source is written inline as
`(c :: cs).take (j + 1)`. -/
def segmentAux (freq : List Char → ℚ) (wordlist : List (List Char)) :
    Nat → List Char → List (List Char × ℚ)
  | _, [] => [([], 1)]
  | 0, _ :: _ => []
  | fuel + 1, c :: cs =>
    (List.range (c :: cs).length).flatMap fun j =>
      if ((c :: cs).take (j + 1)).length = 1 ∧ (c :: cs).take (j + 1) ∉ ONE_LETTER then []
      else if (c :: cs).take (j + 1) ∈ wordlist then
        (segmentAux freq wordlist fuel ((c :: cs).drop (j + 1))).map fun rl =>
          ((c :: cs).take (j + 1) ++ ' ' :: rl.1, rl.2 * freq ((c :: cs).take (j + 1)))
      else []

/-- `segment_words(wordlist, message)` of src/morse.py lines 96-116, as
the list of all yielded (segmentation, likelihood) pairs; `freq` is the
external frequency oracle `word_frequency(word, en)`. -/
def segment_words (freq : List Char → ℚ) (wordlist : List (List Char))
    (message : List Char) : List (List Char × ℚ) :=
  segmentAux freq wordlist message.length message

/-- One update of the best-result state of the `decode` command
(src/morse.py lines 141-143): the state is (max_likelihood,
max_segmentation), a candidate is (segmentation, likelihood), and the
state is replaced exactly when the candidate likelihood is strictly
greater. -/
def rank_step (st : ℚ × List Char) (c : List Char × ℚ) : ℚ × List Char :=
  if c.2 > st.1 then (c.2, c.1) else st

/-- Streaming all candidates through the best-result update, from the
initial state (0.0, empty string) of src/morse.py lines 132-133. -/
def rank_all (cands : List (List Char × ℚ)) : ℚ × List Char :=
  List.foldl rank_step ((0 : ℚ), ([] : List Char)) cands

/-- `S` is spelled by the letter sequence `m`: the concatenation of the
alphabet codes of the letters of `m` is exactly `S`.  This is the
specification-level notion of a complete decoding of `S`. -/
inductive Spells : List Char → List Char → Prop where
  | nil : Spells [] []
  | cons {ch : Char} {code m S : List Char} :
      ([ch], code) ∈ ALPHABET → Spells m S → Spells (ch :: m) (code ++ S)

/-- The segmentation string built from a list of words, each word
followed by one space: the exact output format of `segment_words`. -/
def wordsJoined (ws : List (List Char)) : List Char :=
  (ws.map fun w => w ++ [' ']).flatten

/-! ### Basic facts about the alphabet table -/

lemma alphabet_codes_pos : ∀ p ∈ ALPHABET, 0 < p.2.length := by decide

lemma alphabet_keys_single : ∀ p ∈ ALPHABET, p.1.length = 1 := by decide

lemma alphabet_key_upper : ∀ p ∈ ALPHABET, ∀ ch ∈ p.1, ch.toUpper = ch := by decide

lemma alphabet_lookup_self : ∀ p ∈ ALPHABET, alphabet_lookup p.1 = some p.2 := by decide

lemma alphabet_code_chars : ∀ p ∈ ALPHABET, ∀ c ∈ p.2, c = '.' ∨ c = '-' := by decide

/-! ### List helpers -/

lemma isPrefixOf_append : ∀ (a b : List Char), a.isPrefixOf b → a ++ b.drop a.length = b
  | [], b, _ => by simp
  | _ :: _, [], h => by simp [List.isPrefixOf] at h
  | x :: xs, y :: ys, h => by
    simp only [List.isPrefixOf, Bool.and_eq_true, beq_iff_eq] at h
    obtain ⟨rfl, h2⟩ := h
    simp only [List.length_cons, List.drop_succ_cons, List.cons_append]
    exact congrArg _ (isPrefixOf_append xs ys h2)

lemma joinSep_nil_cons (x : List Char) (xs : List (List Char)) :
    joinSep [] (x :: xs) = x ++ joinSep [] xs := by
  cases xs <;> simp [joinSep]

lemma flatMap_congr_mem {α β : Type} {l : List α} {f g : α → List β}
    (h : ∀ a ∈ l, f a = g a) : l.flatMap f = l.flatMap g := by
  induction l with
  | nil => rfl
  | cons x xs ih =>
    simp only [List.flatMap_cons]
    rw [h x (by simp), ih fun a ha => h a (by simp [ha])]

/-! ### The fuel parameter is irrelevant as soon as it reaches the
string length, and the embedded functions satisfy the recurrences of
the Python source. -/

lemma decodeAux_fuel : ∀ (f₁ f₂ : Nat) (S : List Char), S.length ≤ f₁ → S.length ≤ f₂ →
    decodeAux f₁ S = decodeAux f₂ S := by
  intro f₁
  induction f₁ with
  | zero =>
    intro f₂ S hS₁ _
    have hnil : S = [] := List.length_eq_zero.mp (Nat.le_zero.mp hS₁)
    subst hnil
    cases f₂ <;> rfl
  | succ n ih =>
    intro f₂ S hS₁ hS₂
    cases S with
    | nil => cases f₂ <;> rfl
    | cons c cs =>
      cases f₂ with
      | zero => simp at hS₂
      | succ k =>
        simp only [decodeAux]
        apply flatMap_congr_mem
        intro lc hlc
        have hcode := alphabet_codes_pos lc hlc
        have hdrop : ((c :: cs).drop lc.2.length).length = cs.length + 1 - lc.2.length := by
          simp [List.length_drop]
        simp only [List.length_cons] at hS₁ hS₂
        rw [ih k ((c :: cs).drop lc.2.length) (by omega) (by omega)]

lemma decode_all_possible_nil : decode_all_possible [] = [[]] := rfl

lemma decode_all_possible_cons (c : Char) (cs : List Char) :
    decode_all_possible (c :: cs) =
      ALPHABET.flatMap fun lc =>
        if lc.2.isPrefixOf (c :: cs) then
          (decode_all_possible ((c :: cs).drop lc.2.length)).map fun rest => lc.1 ++ rest
        else [] := by
  unfold decode_all_possible
  simp only [List.length_cons, decodeAux]
  apply flatMap_congr_mem
  intro lc hlc
  have hcode := alphabet_codes_pos lc hlc
  have h₁ : ((c :: cs).drop lc.2.length).length ≤ cs.length := by
    simp only [List.length_drop, List.length_cons]; omega
  rw [decodeAux_fuel cs.length ((c :: cs).drop lc.2.length).length
    ((c :: cs).drop lc.2.length) h₁ le_rfl]

lemma segmentAux_fuel (freq : List Char → ℚ) (wl : List (List Char)) :
    ∀ (f₁ f₂ : Nat) (m : List Char), m.length ≤ f₁ → m.length ≤ f₂ →
      segmentAux freq wl f₁ m = segmentAux freq wl f₂ m := by
  intro f₁
  induction f₁ with
  | zero =>
    intro f₂ m hm₁ _
    have hnil : m = [] := List.length_eq_zero.mp (Nat.le_zero.mp hm₁)
    subst hnil
    cases f₂ <;> rfl
  | succ n ih =>
    intro f₂ m hm₁ hm₂
    cases m with
    | nil => cases f₂ <;> rfl
    | cons c cs =>
      cases f₂ with
      | zero => simp at hm₂
      | succ k =>
        simp only [segmentAux]
        apply flatMap_congr_mem
        intro j _
        have hdrop : ((c :: cs).drop (j + 1)).length = cs.length - j := by
          simp [List.length_drop]
        simp only [List.length_cons] at hm₁ hm₂
        rw [ih k ((c :: cs).drop (j + 1)) (by omega) (by omega)]

lemma segment_words_nil (freq : List Char → ℚ) (wl : List (List Char)) :
    segment_words freq wl [] = [([], 1)] := rfl

lemma segment_words_cons (freq : List Char → ℚ) (wl : List (List Char))
    (c : Char) (cs : List Char) :
    segment_words freq wl (c :: cs) =
      (List.range (c :: cs).length).flatMap fun j =>
        if ((c :: cs).take (j + 1)).length = 1 ∧ (c :: cs).take (j + 1) ∉ ONE_LETTER then []
        else if (c :: cs).take (j + 1) ∈ wl then
          (segment_words freq wl ((c :: cs).drop (j + 1))).map fun rl =>
            ((c :: cs).take (j + 1) ++ ' ' :: rl.1, rl.2 * freq ((c :: cs).take (j + 1)))
        else [] := by
  unfold segment_words
  simp only [List.length_cons, segmentAux]
  apply flatMap_congr_mem
  intro j _
  have h₁ : ((c :: cs).drop (j + 1)).length ≤ cs.length := by
    simp only [List.length_drop, List.length_cons]; omega
  rw [segmentAux_fuel freq wl cs.length ((c :: cs).drop (j + 1)).length
    ((c :: cs).drop (j + 1)) h₁ le_rfl]

/-! ### Inversion of membership in the two searches -/

lemma mem_decode_elim {S m : List Char} (h : m ∈ decode_all_possible S) :
    (S = [] ∧ m = []) ∨
      ∃ lc rest, lc ∈ ALPHABET ∧ lc.2.isPrefixOf S = true ∧
        rest ∈ decode_all_possible (S.drop lc.2.length) ∧ m = lc.1 ++ rest := by
  cases S with
  | nil =>
    left
    rw [decode_all_possible_nil] at h
    simp at h
    exact ⟨rfl, h⟩
  | cons c cs =>
    right
    rw [decode_all_possible_cons] at h
    simp only [List.mem_flatMap] at h
    obtain ⟨lc, hlc, hmem⟩ := h
    by_cases hpre : lc.2.isPrefixOf (c :: cs) = true
    · rw [if_pos hpre] at hmem
      simp only [List.mem_map] at hmem
      obtain ⟨rest, hrest, hm⟩ := hmem
      exact ⟨lc, rest, hlc, hpre, hrest, hm.symm⟩
    · rw [if_neg hpre] at hmem
      simp at hmem

lemma mem_segment_elim {freq : List Char → ℚ} {wl : List (List Char)} {m : List Char}
    {p : List Char × ℚ} (h : p ∈ segment_words freq wl m) :
    (m = [] ∧ p = ([], 1)) ∨
      ∃ j r, j < m.length ∧
        ¬((m.take (j + 1)).length = 1 ∧ m.take (j + 1) ∉ ONE_LETTER) ∧
        m.take (j + 1) ∈ wl ∧
        r ∈ segment_words freq wl (m.drop (j + 1)) ∧
        p = (m.take (j + 1) ++ ' ' :: r.1, r.2 * freq (m.take (j + 1))) := by
  cases m with
  | nil =>
    left
    rw [segment_words_nil] at h
    simp at h
    exact ⟨rfl, h⟩
  | cons c cs =>
    right
    rw [segment_words_cons] at h
    simp only [List.mem_flatMap, List.mem_range] at h
    obtain ⟨j, hj, hmem⟩ := h
    by_cases hflt : ((c :: cs).take (j + 1)).length = 1 ∧ (c :: cs).take (j + 1) ∉ ONE_LETTER
    · rw [if_pos hflt] at hmem
      simp at hmem
    · rw [if_neg hflt] at hmem
      by_cases hw : (c :: cs).take (j + 1) ∈ wl
      · rw [if_pos hw] at hmem
        simp only [List.mem_map] at hmem
        obtain ⟨r, hr, hp⟩ := hmem
        exact ⟨j, r, hj, hflt, hw, hr, hp.symm⟩
      · rw [if_neg hw] at hmem
        simp at hmem

/-! ### Soundness of the decoder: every result spells the input -/

lemma decode_sound : ∀ (S m : List Char), m ∈ decode_all_possible S → Spells m S := by
  have key : ∀ (n : Nat) (S m : List Char), S.length ≤ n →
      m ∈ decode_all_possible S → Spells m S := by
    intro n
    induction n with
    | zero =>
      intro S m hS hm
      have hnil : S = [] := List.length_eq_zero.mp (Nat.le_zero.mp hS)
      subst hnil
      rw [decode_all_possible_nil] at hm
      simp at hm
      subst hm
      exact Spells.nil
    | succ n ih =>
      intro S m hS hm
      rcases mem_decode_elim hm with ⟨rfl, rfl⟩ | ⟨lc, rest, hlc, hpre, hrest, rfl⟩
      · exact Spells.nil
      · obtain ⟨ch, hch⟩ := List.length_eq_one.mp (alphabet_keys_single lc hlc)
        have hcode := alphabet_codes_pos lc hlc
        have hlen : (S.drop lc.2.length).length ≤ n := by
          simp only [List.length_drop]
          omega
        have hsp := ih (S.drop lc.2.length) rest hlen hrest
        have hlc' : ([ch], lc.2) ∈ ALPHABET := by rw [← hch]; exact hlc
        have hS' : lc.2 ++ S.drop lc.2.length = S := isPrefixOf_append _ _ hpre
        rw [← hS', hch]
        exact Spells.cons hlc' hsp
  intro S m
  exact key S.length S m le_rfl

lemma spells_code_chars {m S : List Char} (h : Spells m S) :
    ∀ c ∈ S, c = '.' ∨ c = '-' := by
  induction h with
  | nil => intro c hc; simp at hc
  | cons hmem _ ih =>
    intro c hc
    rcases List.mem_append.mp hc with h1 | h2
    · exact alphabet_code_chars _ hmem c h1
    · exact ih c h2

lemma spells_length_le {m S : List Char} (h : Spells m S) : m.length ≤ S.length := by
  induction h with
  | nil => simp
  | cons hmem _ ih =>
    have hc := alphabet_codes_pos _ hmem
    simp only [List.length_cons, List.length_append]
    simp only [List.length_cons] at hc ⊢
    omega

/-! ### Facts about the encoder -/

lemma encode_codes_none {uni : Char → List Char} :
    ∀ (l : List Char), (∃ x ∈ l, alphabet_lookup (uni x) = none) →
      encode_codes uni l = none := by
  intro l
  induction l with
  | nil => rintro ⟨x, hx, _⟩; simp at hx
  | cons y ys ih =>
    rintro ⟨x, hx, hnone⟩
    rcases List.mem_cons.mp hx with rfl | hxs
    · simp [encode_codes, hnone]
    · have hys := ih ⟨x, hxs, hnone⟩
      simp only [encode_codes, hys]
      cases alphabet_lookup (uni y) <;> rfl

lemma spells_encode {uni : Char → List Char}
    (huni : ∀ p ∈ ALPHABET, ∀ ch ∈ p.1, uni ch = [ch]) :
    ∀ {m S : List Char}, Spells m S → encode uni m false = some S := by
  intro m S h
  induction h with
  | nil => rfl
  | cons hmem hsp ih =>
    rename_i ch code m' S'
    have hchup : ch.toUpper = ch := alphabet_key_upper _ hmem ch (by simp)
    have hchuni : uni ch = [ch] := huni _ hmem ch (by simp)
    have hlook : alphabet_lookup [ch] = some code := alphabet_lookup_self _ hmem
    unfold encode at ih ⊢
    simp only [Bool.false_eq_true, if_false] at ih ⊢
    cases hc : encode_codes uni (List.map Char.toUpper m') with
    | none => rw [hc] at ih; simp at ih
    | some codes =>
      rw [hc] at ih
      simp only [Option.map_some'] at ih
      simp only [List.map_cons, hchup, encode_codes, hchuni, hlook, hc,
        Option.map_some']
      rw [joinSep_nil_cons, Option.some_inj.mp ih]

/-! ### Claim theorems -/

/-- Claim C1: for every code string S, every message m yielded by
decode_all_possible(S), when re-encoded with encode(m, spaces=False),
equals S exactly.  `uni` is the external unidecode oracle; the
hypothesis states that it is the identity on the (unaccented,
uppercase) letters of the alphabet table, which is true of the real
unidecode. -/
theorem c1_decode_reencode_roundtrip (uni : Char → List Char) (S m : List Char)
    (huni : ∀ p ∈ ALPHABET, ∀ ch ∈ p.1, uni ch = [ch])
    (hm : m ∈ decode_all_possible S) :
    encode uni m false = some S :=
  spells_encode huni (decode_sound S m hm)

theorem c1_decode_reencode_roundtrip_witness :
    ['E', 'T'] ∈ decode_all_possible ['.', '-'] ∧
      encode (fun c => [c]) ['E', 'T'] false = some ['.', '-'] :=
  ⟨by decide, c1_decode_reencode_roundtrip (fun c => [c]) ['.', '-'] ['E', 'T']
    (by decide) (by decide)⟩

/-- Claim C3: encode fails (KeyError, modelled as `none`) as soon as one
character of the message, after upper-casing and transliteration, has no
entry in the alphabet table; it does not skip or substitute the
character. -/
theorem c3_encode_unknown_symbol (uni : Char → List Char) (message : List Char)
    (spaces : Bool)
    (h : ∃ c ∈ message, alphabet_lookup (uni c.toUpper) = none) :
    encode uni message spaces = none := by
  obtain ⟨c, hc, hnone⟩ := h
  unfold encode
  rw [encode_codes_none (message.map Char.toUpper)
    ⟨c.toUpper, List.mem_map_of_mem _ hc, hnone⟩]
  rfl

theorem c3_encode_unknown_symbol_witness :
    encode (fun c => [c]) ['A', '1'] true = none :=
  c3_encode_unknown_symbol (fun c => [c]) ['A', '1'] true ⟨'1', by decide, by decide⟩

/-- Claim C4: a string that admits no complete decoding yields the empty
list of results; the embedded function is total, so no error is raised.
(Note: every string of dots and dashes is decodable, because E = dot and
T = dash are in the table, so the hypothesis is satisfiable only by
strings containing a character other than dot and dash -- the code does
not validate its input and returns the empty result for such strings.) -/
theorem c4_no_decoding_empty (S : List Char) (h : ¬ ∃ m, Spells m S) :
    decode_all_possible S = [] := by
  by_contra hne
  obtain ⟨m, hm⟩ := List.exists_mem_of_ne_nil _ hne
  exact h ⟨m, decode_sound S m hm⟩

theorem c4_no_decoding_empty_witness : decode_all_possible ['x'] = [] :=
  c4_no_decoding_empty ['x'] (by
    rintro ⟨m, hm⟩
    have h := spells_code_chars hm 'x' (by decide)
    exact absurd h (by decide))

/-- Claim C6: decoding the empty code string yields exactly one result,
the empty string. -/
theorem c6_decode_empty : decode_all_possible [] = [[]] := rfl

/-- Claim C7: segmenting the empty letter sequence yields exactly one
result, the empty segmentation with likelihood 1.0, for every wordlist
and every frequency oracle. -/
theorem c7_segment_empty (freq : List Char → ℚ) (wl : List (List Char)) :
    segment_words freq wl [] = [([], 1)] := rfl

/-- Claim C8: every alphabet code has length at least one, so each
recursive call of the decoder is on a strict suffix shorter than its
argument, and likewise each recursive call of the segmenter (on
`message.drop (j + 1)`) is on a strict suffix; consequently the searches
terminate (the embedded functions are total) and their enumerations are
finite -- in particular every decoded message is no longer than the
input code string. -/
theorem c8_termination_measures :
    (∀ p ∈ ALPHABET, 1 ≤ p.2.length) ∧
    (∀ p ∈ ALPHABET, ∀ S : List Char, S ≠ [] →
      (S.drop p.2.length).length < S.length) ∧
    (∀ (msg : List Char) (j : Nat), msg ≠ [] →
      (msg.drop (j + 1)).length < msg.length) ∧
    (∀ (S m : List Char), m ∈ decode_all_possible S → m.length ≤ S.length) := by
  refine ⟨fun p hp => alphabet_codes_pos p hp, ?_, ?_, ?_⟩
  · intro p hp S hS
    have hc := alphabet_codes_pos p hp
    have hlen : 0 < S.length := List.length_pos.mpr hS
    simp only [List.length_drop]
    omega
  · intro msg j hmsg
    have hlen : 0 < msg.length := List.length_pos.mpr hmsg
    simp only [List.length_drop]
    omega
  · exact fun S m hm => spells_length_le (decode_sound S m hm)

theorem c8_termination_measures_witness :
    1 ≤ ((['A'], ['.', '-']) : List Char × List Char).2.length ∧
      ((['.', '-', '.'] : List Char).drop
          ((['A'], ['.', '-']) : List Char × List Char).2.length).length <
        (['.', '-', '.'] : List Char).length ∧
      ((['H', 'I'] : List Char).drop (0 + 1)).length < (['H', 'I'] : List Char).length ∧
      (['E'] : List Char).length ≤ (['.'] : List Char).length :=
  ⟨c8_termination_measures.1 (['A'], ['.', '-']) (by decide),
   c8_termination_measures.2.1 (['A'], ['.', '-']) (by decide) ['.', '-', '.'] (by decide),
   c8_termination_measures.2.2.1 ['H', 'I'] 0 (by decide),
   c8_termination_measures.2.2.2 ['.'] ['E'] (by decide)⟩

lemma rank_step_mono (st : ℚ × List Char) (c : List Char × ℚ) :
    st.1 ≤ (rank_step st c).1 := by
  unfold rank_step
  split
  · rename_i h; exact le_of_lt h
  · exact le_rfl

lemma rank_foldl_mono : ∀ (cands : List (List Char × ℚ)) (st : ℚ × List Char),
    st.1 ≤ (List.foldl rank_step st cands).1 := by
  intro cands
  induction cands with
  | nil => intro st; exact le_rfl
  | cons c cs ih =>
    intro st
    exact le_trans (rank_step_mono st c) (ih (rank_step st c))

/-- Claim C9: the best-result state of the Ranker is monotone: one
update never decreases the tracked maximum, streaming any candidate list
never decreases it, the state is replaced exactly when the candidate
likelihood is strictly greater (so on a tie the earliest-found result is
kept), and the final maximum starting from the initial state (0.0, "")
is non-negative. -/
theorem c9_ranker_monotone (st : ℚ × List Char) (c : List Char × ℚ)
    (cands : List (List Char × ℚ)) :
    st.1 ≤ (rank_step st c).1 ∧
    st.1 ≤ (List.foldl rank_step st cands).1 ∧
    (c.2 ≤ st.1 → rank_step st c = st) ∧
    (st.1 < c.2 → rank_step st c = (c.2, c.1)) ∧
    0 ≤ (rank_all cands).1 := by
  refine ⟨rank_step_mono st c, rank_foldl_mono cands st, ?_, ?_, ?_⟩
  · intro h
    unfold rank_step
    rw [if_neg (not_lt.mpr h)]
  · intro h
    unfold rank_step
    rw [if_pos h]
  · exact rank_foldl_mono cands ((0 : ℚ), ([] : List Char))

theorem c9_ranker_monotone_witness :
    rank_step (1, ['X']) (['Y'], 1) = (1, ['X']) ∧
      rank_step (1, ['X']) (['Z'], 2) = (2, ['Z']) :=
  ⟨(c9_ranker_monotone (1, ['X']) (['Y'], 1) []).2.2.1 le_rfl,
   (c9_ranker_monotone (1, ['X']) (['Z'], 2) []).2.2.2.1 one_lt_two⟩

lemma segment_bounds {freq : List Char → ℚ} {wl : List (List Char)}
    (hf : ∀ w, 0 ≤ freq w ∧ freq w ≤ 1) :
    ∀ (n : Nat) (m : List Char), m.length ≤ n →
      ∀ p ∈ segment_words freq wl m, 0 ≤ p.2 ∧ p.2 ≤ 1 := by
  intro n
  induction n with
  | zero =>
    intro m hm p hp
    have hnil : m = [] := List.length_eq_zero.mp (Nat.le_zero.mp hm)
    subst hnil
    rw [segment_words_nil] at hp
    simp at hp
    rw [hp]
    norm_num
  | succ n ih =>
    intro m hm p hp
    rcases mem_segment_elim hp with ⟨rfl, rfl⟩ | ⟨j, r, hj, hflt, hw, hr, rfl⟩
    · norm_num
    · have hlen : (m.drop (j + 1)).length ≤ n := by
        simp only [List.length_drop]; omega
      have hrb := ih (m.drop (j + 1)) hlen r hr
      have hfw := hf (m.take (j + 1))
      constructor
      · exact mul_nonneg hrb.1 hfw.1
      · show r.2 * freq (m.take (j + 1)) ≤ 1
        nlinarith [hrb.1, hrb.2, hfw.1, hfw.2]

/-- Claim C5: if the frequency oracle returns values in the interval
from 0 to 1 for every word, then every likelihood yielded by
segment_words lies in that interval (in particular it is at most 1.0),
and multiplying a yielded likelihood by a further frequency factor
never increases it (appending a further word cannot increase the
likelihood). -/
theorem c5_likelihood_bounds (freq : List Char → ℚ) (wl : List (List Char))
    (m : List Char) (hf : ∀ w, 0 ≤ freq w ∧ freq w ≤ 1) :
    (∀ p ∈ segment_words freq wl m, 0 ≤ p.2 ∧ p.2 ≤ 1) ∧
    (∀ p ∈ segment_words freq wl m, ∀ w, p.2 * freq w ≤ p.2) := by
  constructor
  · exact fun p hp => segment_bounds hf m.length m le_rfl p hp
  · intro p hp w
    have hb := segment_bounds hf m.length m le_rfl p hp
    have hw := hf w
    nlinarith [hb.1, hb.2, hw.1, hw.2]

unseal Rat.mul in
theorem c5_likelihood_bounds_witness :
    ((['A', ' '], (1 : ℚ)) ∈ segment_words (fun _ => 1) [['A']] ['A']) ∧
      0 ≤ ((['A', ' '], (1 : ℚ)) : List Char × ℚ).2 ∧
      ((['A', ' '], (1 : ℚ)) : List Char × ℚ).2 ≤ 1 :=
  ⟨by decide,
   (c5_likelihood_bounds (fun _ => 1) [['A']] ['A']
      (fun w => ⟨zero_le_one, le_rfl⟩)).1 (['A', ' '], 1) (by decide)⟩

lemma segment_shape {freq : List Char → ℚ} {wl : List (List Char)} :
    ∀ (n : Nat) (m : List Char), m.length ≤ n →
      ∀ p ∈ segment_words freq wl m, ∃ ws : List (List Char),
        p.1 = wordsJoined ws ∧
          ∀ w ∈ ws, w ∈ wl ∧ (w.length = 1 → w ∈ ONE_LETTER) := by
  intro n
  induction n with
  | zero =>
    intro m hm p hp
    have hnil : m = [] := List.length_eq_zero.mp (Nat.le_zero.mp hm)
    subst hnil
    rw [segment_words_nil] at hp
    simp at hp
    rw [hp]
    exact ⟨[], rfl, by simp⟩
  | succ n ih =>
    intro m hm p hp
    rcases mem_segment_elim hp with ⟨rfl, rfl⟩ | ⟨j, r, hj, hflt, hw, hr, rfl⟩
    · exact ⟨[], rfl, by simp⟩
    · have hlen : (m.drop (j + 1)).length ≤ n := by
        simp only [List.length_drop]; omega
      obtain ⟨ws, hws, hall⟩ := ih (m.drop (j + 1)) hlen r hr
      refine ⟨m.take (j + 1) :: ws, ?_, ?_⟩
      · simp only [wordsJoined, List.map_cons, List.flatten_cons]
        rw [← wordsJoined, ← hws, List.append_assoc]
        rfl
      · intro w hmem
        rcases List.mem_cons.mp hmem with rfl | hmem2
        · refine ⟨hw, fun hone => ?_⟩
          by_contra hnot
          exact hflt ⟨hone, hnot⟩
        · exact hall w hmem2

/-- Claim C10: every word of every segmentation yielded by segment_words
is a member of the wordlist, and a one-character word is additionally in
the one-letter allow-list {A, I}; allow-list membership alone is not
sufficient (the word A is rejected when it is not in the wordlist). -/
theorem c10_words_from_wordlist (freq : List Char → ℚ) (wl : List (List Char))
    (m : List Char) :
    (∀ p ∈ segment_words freq wl m, ∃ ws : List (List Char),
      p.1 = wordsJoined ws ∧
        ∀ w ∈ ws, w ∈ wl ∧ (w.length = 1 → w ∈ ONE_LETTER)) ∧
    (['A'] ∉ wl → segment_words freq wl ['A'] = []) := by
  constructor
  · exact fun p hp => segment_shape m.length m le_rfl p hp
  · intro hA
    rw [segment_words_cons]
    simp [ONE_LETTER, hA]

theorem c10_words_from_wordlist_witness :
    segment_words (fun _ => (1 : ℚ)) [] ['A'] = [] :=
  (c10_words_from_wordlist (fun _ => 1) [] ['A']).2 (by decide)

unseal Rat.mul in
/-- Claim C2 is false as stated: with wordlist {AB}, the only
segmentation of AB is the string AB followed by a trailing space (yield
is word + space + rest), never AB alone; and with wordlist {B}, the
one-letter message B yields no segmentation at all, because the
one-letter filter rejects B before the wordlist is consulted. -/
theorem c2_segment_singleton_counterexample :
    (¬ ∃ p ∈ segment_words (fun _ => (1 : ℚ)) [['A', 'B']] ['A', 'B'],
        p.1 = ['A', 'B']) ∧
      segment_words (fun _ => (1 : ℚ)) [['B']] ['B'] = [] :=
  ⟨by decide, by decide⟩

/-- Claim C2 (amended): for every word W that has length at least 2 or
belongs to the one-letter allow-list {A, I}, segment_words with wordlist
{W} on input W yields exactly one segmentation: the string W followed by
a single trailing space, with likelihood frequency(W). -/
theorem c2_segment_singleton (freq : List Char → ℚ) (W : List Char)
    (h : 2 ≤ W.length ∨ W ∈ ONE_LETTER) :
    segment_words freq [W] W = [(W ++ [' '], freq W)] := by
  cases W with
  | nil =>
    exfalso
    rcases h with h2 | hmem
    · simp at h2
    · simp [ONE_LETTER] at hmem
  | cons c cs =>
    rw [segment_words_cons, List.length_cons, List.range_succ, List.flatMap_append]
    have hfirst : (List.range cs.length).flatMap
        (fun j =>
          if ((c :: cs).take (j + 1)).length = 1 ∧ (c :: cs).take (j + 1) ∉ ONE_LETTER
          then []
          else
            if (c :: cs).take (j + 1) ∈ [c :: cs] then
              (segment_words freq [c :: cs] ((c :: cs).drop (j + 1))).map fun rl =>
                ((c :: cs).take (j + 1) ++ ' ' :: rl.1,
                  rl.2 * freq ((c :: cs).take (j + 1)))
            else []) = [] := by
      rw [List.flatMap_eq_nil_iff]
      intro j hj
      rw [List.mem_range] at hj
      have hword : ((c :: cs).take (j + 1)).length = j + 1 := by
        rw [List.length_take, List.length_cons]
        omega
      have hne : ¬ (c :: cs).take (j + 1) ∈ [c :: cs] := by
        rw [List.mem_singleton]
        intro heq
        rw [heq, List.length_cons] at hword
        omega
      by_cases hA : ((c :: cs).take (j + 1)).length = 1 ∧
          (c :: cs).take (j + 1) ∉ ONE_LETTER
      · rw [if_pos hA]
      · rw [if_neg hA, if_neg hne]
    rw [hfirst, List.nil_append, List.flatMap_cons, List.flatMap_nil, List.append_nil]
    have htake : (c :: cs).take (cs.length + 1) = c :: cs :=
      List.take_of_length_le (by simp)
    have hdropn : (c :: cs).drop (cs.length + 1) = [] :=
      List.drop_eq_nil_of_le (by simp)
    rw [htake, hdropn, segment_words_nil]
    have hno : ¬((c :: cs).length = 1 ∧ (c :: cs) ∉ ONE_LETTER) := by
      rintro ⟨h1, h2⟩
      rcases h with h3 | h3
      · rw [h1] at h3; omega
      · exact h2 h3
    rw [if_neg hno, if_pos (List.mem_singleton.mpr rfl)]
    simp [one_mul]

theorem c2_segment_singleton_witness :
    segment_words (fun _ => (2 : ℚ)) [['H', 'I']] ['H', 'I'] =
      [(['H', 'I', ' '], 2)] := by
  have h := c2_segment_singleton (fun _ => (2 : ℚ)) ['H', 'I'] (Or.inl (by decide))
  rw [h]
  rfl

example : decode_all_possible [] = [[]] := by decide
example : decode_all_possible ['.'] = [['E']] := by decide
example : decode_all_possible ['.', '-'] = [['A'], ['E', 'T']] := by decide
unseal Rat.mul in
example : segment_words (fun _ => 1) [['A']] ['A'] = [(['A', ' '], 1)] := by decide
example : segment_words (fun _ => 1) [['B']] ['B'] = [] := by decide
unseal Rat.mul in
example : segment_words (fun _ => 1) [['A', 'B']] ['A', 'B'] = [(['A', 'B', ' '], 1)] := by decide
example : encode (fun c => [c]) ['A', '1'] true = none := by decide
example : encode (fun c => [c]) ['E', 'T'] false = some ['.', '-'] := by decide
example : encode (fun c => [c]) ['E', 'T'] true = some ['.', ' ', '-'] := by decide
